import Mathlib

/-!
Verification of the cutting-plane transformation
(`pyomo/gdp/plugins/cuttingplane.py`, `CuttingPlane_Transformation._apply_to`)
and of the temporary-subsystem context manager
(`pyomo/util/subsystems.py`, `TemporarySubsystemManager`).

The Python code is shallowly embedded: Python floats are modelled as exact
rationals (plus the `float("inf")` initial value, see `PyFloat`), the external
solvers are modelled as oracles supplying per-iteration objective values and
variable valuations, and each model instance's variables are addressed by the
same name-plus-index strings that the source builds
(`var_name + "[" + str(index) + "]"`).
-/

namespace CuttingPlane

/-- `str.startswith` on strings, used by the source to filter out indicator
variables by the reserved name marker. -/
def strStarts (s p : String) : Bool := p.data.isPrefixOf s.data

/-- A variable component of the relaxed big-M instance, as iterated by
`component_objects(Var, active=True)`: a component name and the index set of
its data members (`for index in varobject`).  A scalar variable has the single
pseudo-index `"None"`, mirroring `str(None)`.  The oracle contract of the
relaxations guarantees that the big-M copy, the relaxed big-M copy and the
hull copy expose the same components with the same index sets, which is what
the source's `getattr(..., var_name)` name lookups rely on. -/
structure VarComp where
  name : String
  indices : List String

/-- The dictionary key the source builds for a variable datum:
`var_name + "[" + str(index) + "]"`. -/
def key (name idx : String) : String := name ++ "[" ++ idx ++ "]"

/-- The variables the loop registers: every active variable component whose
name does not start with `"_gdp_relax_bigm."` (line 77 and line 101). -/
def registeredVars (vars : List VarComp) : List VarComp :=
  vars.filter (fun v => !(strStarts v.name "_gdp_relax_bigm."))

/-- The data keys of one variable component. -/
def varKeys (v : VarComp) : List String := v.indices.map (key v.name)

/-- Keys of all registered (non-indicator) variable data, in iteration
order: the domain of the candidate point and of every cut. -/
def registeredKeys (vars : List VarComp) : List String :=
  (registeredVars vars).flatMap varKeys

/-- Keys of all variable data, indicator variables included. -/
def allKeys (vars : List VarComp) : List String := vars.flatMap varKeys

/-- Keys of the excluded indicator-variable data. -/
def indicatorKeys (vars : List VarComp) : List String :=
  (vars.filter (fun v => strStarts v.name "_gdp_relax_bigm.")).flatMap varKeys

/-- Association-list lookup with Python's dict-access semantics at the keys
that are present (the source only ever accesses keys it has inserted). -/
def lookupD (xs : List (String × ℚ)) (k : String) : ℚ :=
  (List.lookup k xs).getD 0

/-- The dictionary `x_star` built at lines 72-83: for every registered
variable datum, its value in the solved relaxed big-M instance
(`soln_value = varobject[index].value`). -/
def x_star (vars : List VarComp) (rBigmVal : String → ℚ) : List (String × ℚ) :=
  vars.foldl (fun acc v =>
    if strStarts v.name "_gdp_relax_bigm." then acc
    else v.indices.foldl
      (fun a idx => a ++ [(key v.name idx, rBigmVal (key v.name idx))]) acc) []

/-- The separation objective expression `obj_expr` accumulated at lines 72-83,
`obj_expr += (sep_var[index] - soln_value)**2`, as a function of a valuation
`assign` of the hull instance's variables. -/
def obj_expr (vars : List VarComp) (rBigmVal : String → ℚ) (assign : String → ℚ) : ℚ :=
  vars.foldl (fun acc v =>
    if strStarts v.name "_gdp_relax_bigm." then acc
    else v.indices.foldl
      (fun a idx =>
        a + (assign (key v.name idx) - rBigmVal (key v.name idx)) ^ 2) acc) 0

/-- The cut expression accumulated at lines 96-110,
`cutexpr += norm_vec_val * (var[index] - xhat_val)` with
`norm_vec_val = xhat_val - x_star[key]`, as a function of a valuation
`target` of the instance receiving the cut.  The same expression is built
twice in the source, once against `rBigm_var` and once against `bigm_var`;
only the target valuation differs. -/
def cutexpr (vars : List VarComp) (xs : List (String × ℚ))
    (chullVal target : String → ℚ) : ℚ :=
  vars.foldl (fun acc v =>
    if strStarts v.name "_gdp_relax_bigm." then acc
    else v.indices.foldl
      (fun a idx =>
        a + (chullVal (key v.name idx) - lookupD xs (key v.name idx)) *
          (target (key v.name idx) - chullVal (key v.name idx))) acc) 0

/-- The symbolic content of the cut expression of lines 96-110: the list of
its summands in accumulation order, each summand recorded as
(key, coefficient `norm_vec_val`, offset `xhat_val`). -/
def cutTerms (vars : List VarComp) (xs : List (String × ℚ))
    (chullVal : String → ℚ) : List (String × ℚ × ℚ) :=
  vars.foldl (fun acc v =>
    if strStarts v.name "_gdp_relax_bigm." then acc
    else v.indices.foldl
      (fun a idx =>
        a ++ [(key v.name idx,
               chullVal (key v.name idx) - lookupD xs (key v.name idx),
               chullVal (key v.name idx))]) acc) []

/-- Evaluation of a recorded cut at a target valuation:
`Σ coeff * (target k - offset)`. -/
def cutTermsValue (terms : List (String × ℚ × ℚ)) (target : String → ℚ) : ℚ :=
  (terms.map (fun t => t.2.1 * (target t.1 - t.2.2))).sum

/-- A Python float as used by the loop: the initial `float("inf")` or a
finite value (modelled exactly as a rational). -/
inductive PyFloat where
  | inf : PyFloat
  | fin : ℚ → PyFloat
deriving DecidableEq

/-- `prev_obj - rBigm_objVal` (line 118 / 122): subtraction with
`inf - x = inf`. -/
def PyFloat.sub : PyFloat → ℚ → PyFloat
  | inf, _ => inf
  | fin a, b => fin (a - b)

/-- `... > epsilon` (line 118): comparison with `inf > x` always true. -/
def PyFloat.gtQ : PyFloat → ℚ → Bool
  | inf, _ => true
  | fin a, b => decide (b < a)

/-- `epsilon = 0.001` (line 46). -/
def epsilon : ℚ := 0.001

/-- Reported status of an external solver call.  The source never reads it
(`results` at line 61 is assigned and unused; the return of line 92 is
discarded), but it is part of the solver oracle's output. -/
inductive SolverStatus where
  | ok
  | infeasible
  | error
deriving DecidableEq

/-- Output of the weak-relaxation (relaxed big-M) solve at line 61: status,
the value of the unique active objective (`rBigm_objVal`, line 66), and the
resulting variable values keyed by data key. -/
structure WeakSolveOut where
  status : SolverStatus
  objVal : ℚ
  rBigmVal : String → ℚ

/-- Output of the separation solve at line 92: status and the hull instance's
variable values (`xhat`). -/
structure SepSolveOut where
  status : SolverStatus
  chullVal : String → ℚ

/-- The pair of solver outcomes one loop iteration observes. -/
structure IterOracle where
  weak : WeakSolveOut
  sep : SepSolveOut

/-- The loop-carried state of `_apply_to` (lines 42-44 and 112-124):
`improving`, `iteration`, `prev_obj`, and the cuts installed so far on the
relaxed big-M instance, each tagged with the iteration index that produced it
(`"_cut" + str(iteration)`, line 114).  The parallel install into
`instance_bigm` at line 112 refers to a name that is never bound (see
`boundLocalNames`), so it has no well-defined effect to record. -/
structure LoopState where
  improving : Bool
  iteration : Nat
  prev_obj : PyFloat
  rBigmCuts : List (Nat × List (String × ℚ × ℚ))

/-- Lines 42-44: `improving = True`, `iteration = 0`,
`prev_obj = float("inf")`, no cuts yet. -/
def initState : LoopState := ⟨true, 0, PyFloat.inf, []⟩

/-- One body execution of the `while (improving)` loop (lines 59-124), given
the two solver outcomes of this iteration: build `x_star` and the cut from
the solved values, install the cut tagged with the current iteration index,
then set `improving = prev_obj - rBigm_objVal > epsilon`, update `prev_obj`
unconditionally, and increment `iteration`. -/
def loopBody (vars : List VarComp) (it : IterOracle) (s : LoopState) : LoopState :=
  { improving := (s.prev_obj.sub it.weak.objVal).gtQ epsilon
    iteration := s.iteration + 1
    prev_obj := PyFloat.fin it.weak.objVal
    rBigmCuts := s.rBigmCuts ++
      [(s.iteration, cutTerms vars (x_star vars it.weak.rBigmVal) it.sep.chullVal)] }

/-- The `while (improving)` loop driven by a finite list of per-iteration
solver outcomes: while `improving` holds and outcomes remain, run the body. -/
def runLoop (vars : List VarComp) : LoopState → List IterOracle → LoopState
  | s, [] => s
  | s, it :: rest => if s.improving then runLoop vars (loopBody vars it s) rest else s

/-- A solver oracle whose weak solve reports the given objective value. -/
def seqOracle (q : ℚ) : IterOracle :=
  ⟨⟨SolverStatus.ok, q, fun _ => 0⟩, ⟨SolverStatus.ok, fun _ => 0⟩⟩

/-- The loop driven by an infinite stream of weak-relaxation objective
values: the state after `n` guard checks.  If `improving` still holds, the
body runs again — there is no other exit. -/
def runStream (f : Nat → ℚ) : Nat → LoopState
  | 0 => initState
  | n + 1 =>
    if (runStream f n).improving then
      loopBody [] (seqOracle (f n)) (runStream f n)
    else runStream f n

/-- Objective sense of a Pyomo objective component. -/
inductive ObjSense where
  | minimize
  | maximize
deriving DecidableEq

/-- An objective component of the hull instance: activity flag, sense, and
its expression (as a function of a variable valuation). -/
structure ObjComp where
  active : Bool
  sense : ObjSense
  objFn : (String → ℚ) → ℚ

/-- Lines 48-49: `for o in instance_rChull.component_data_objects(Objective):
o.deactivate()` — executed once, before the loop. -/
def deactivateAllObjectives (objs : List ObjComp) : List ObjComp :=
  objs.map (fun o => { o with active := false })

/-- Line 89: `rChull_obj.set_value(expr=obj_expr)` — replaces the expression
of the retrieved objective; no other attribute of the objective is touched. -/
def set_objective_value (o : ObjComp) (e : (String → ℚ) → ℚ) : ObjComp :=
  { o with objFn := e }

/-- Local names bound (assigned, bound as parameters, or bound as loop
targets) anywhere in the body of `_apply_to`, lines 28-131, transcribed from
the source. -/
def boundLocalNames : List String :=
  ["self", "instance", "kwds",
   "bigMRelaxation", "chullRelaxation", "relaxIntegrality",
   "instance_rChull", "instance_rBigm", "opt",
   "improving", "iteration", "prev_obj", "epsilon",
   "o", "results", "obj_name", "rBigm_obj", "rBigm_objVal", "sep_name",
   "obj_expr", "x_star", "v", "var_name", "varobject", "sep_var",
   "index", "soln_value", "rChull_obj",
   "cutexpr_bigm", "cutexpr_rBigm",
   "rBigm_var", "bigm_var", "xhat_var", "xhat_val", "norm_vec_val",
   "mip_opt"]

/-- Names defined at module level in `cuttingplane.py` (imports aside, none
of which exports a model instance either). -/
def moduleLevelNames : List String :=
  ["SOLVER", "MIPSOLVER", "stream_solvers", "CuttingPlane_Transformation", "pdb"]

/-- The instance names the cut-install statements write to: line 112
(`instance_bigm.add_component`) and line 114 (`instance_rBigm.add_component`);
line 103 and line 129 also read `instance_bigm`. -/
def cutInstallTargetNames : List String := ["instance_bigm", "instance_rBigm"]

/-- A one-variable model used as concrete input: one scalar non-indicator
variable `x`. -/
def degVars : List VarComp := [⟨"x", ["None"]⟩]

/-- Solver outcomes in which the separation solve returns the candidate
itself: `xhat = x_star`, so the direction vector is exactly zero. -/
def degOracle : IterOracle :=
  ⟨⟨SolverStatus.ok, 5, fun _ => 1⟩, ⟨SolverStatus.ok, fun _ => 1⟩⟩

/-- The weak-relaxation objective-value sequence of the spec's convergence
example: 10.0, 9.5, 9.0001, 9.0000. -/
def specSeq : List IterOracle :=
  [seqOracle 10, seqOracle (19 / 2), seqOracle (90001 / 10000), seqOracle 9]

/-- A two-component model with one indexed registered variable and one
indicator variable introduced by the big-M relaxation. -/
def mixedVars : List VarComp :=
  [⟨"x", ["1", "2"]⟩, ⟨"_gdp_relax_bigm.d", ["None"]⟩]

end CuttingPlane

namespace Subsystems

/-- The mutable flags and values of a model's components:
`var.fixed`, `con.active`, `comp.value`, addressed by component name. -/
structure SysState where
  fixed : String → Bool
  active : String → Bool
  value : String → ℚ

/-- `var.fix()` (line 88): sets the fixed flag, leaves the value alone. -/
def fixVar (s : SysState) (v : String) : SysState :=
  { s with fixed := fun x => if x = v then true else s.fixed x }

/-- `var.unfix()` (line 98). -/
def unfixVar (s : SysState) (v : String) : SysState :=
  { s with fixed := fun x => if x = v then false else s.fixed x }

/-- `con.deactivate()` (line 91). -/
def deactivateCon (s : SysState) (c : String) : SysState :=
  { s with active := fun x => if x = c then false else s.active x }

/-- `con.activate()` (line 101). -/
def activateCon (s : SysState) (c : String) : SysState :=
  { s with active := fun x => if x = c then true else s.active x }

/-- `comp.set_value(val)` (line 103). -/
def setCompValue (s : SysState) (c : String) (q : ℚ) : SysState :=
  { s with value := fun x => if x = c then q else s.value x }

/-- `self._var_was_fixed = [(var, var.fixed) for var in to_fix]` (line 83),
recorded before any fixing happens. -/
def var_was_fixed (s : SysState) (to_fix : List String) : List (String × Bool) :=
  to_fix.map (fun v => (v, s.fixed v))

/-- `self._con_was_active = [(con, con.active) for con in to_deactivate]`
(line 84). -/
def con_was_active (s : SysState) (to_deactivate : List String) : List (String × Bool) :=
  to_deactivate.map (fun c => (c, s.active c))

/-- `self._comp_original_value = [(comp, comp.value) for comp in to_reset]`
(line 85). -/
def comp_original_value (s : SysState) (to_reset : List String) : List (String × ℚ) :=
  to_reset.map (fun c => (c, s.value c))

/-- The state mutations of `__enter__` (lines 87-91): fix every variable in
`to_fix`, then deactivate every constraint in `to_deactivate`. -/
def enterTSM (s : SysState) (to_fix to_deactivate : List String) : SysState :=
  to_deactivate.foldl deactivateCon (to_fix.foldl fixVar s)

/-- `__exit__` (lines 95-103): unfix the variables that were not fixed at
entry, reactivate the constraints that were active at entry, restore the
recorded values of the `to_reset` components. -/
def exitTSM (s : SysState) (vwf cwa : List (String × Bool))
    (cov : List (String × ℚ)) : SysState :=
  (cov.foldl (fun st p => setCompValue st p.1 p.2)
    (cwa.foldl (fun st p => if p.2 then activateCon st p.1 else st)
      (vwf.foldl (fun st p => if p.2 then st else unfixVar st p.1) s)))

/-- The exit step with the records the manager took at entry on state `s0`,
applied to the state `sB` the managed block left behind. -/
def tsmExitFrom (s0 sB : SysState) (to_fix to_deactivate to_reset : List String) : SysState :=
  exitTSM sB (var_was_fixed s0 to_fix) (con_was_active s0 to_deactivate)
    (comp_original_value s0 to_reset)

/-- A concrete entry state: variable `b` fixed, variable `a` unfixed,
constraint `c` active, constraint `d` inactive, every value 7. -/
def tsmS0 : SysState := ⟨fun x => x == "b", fun x => x == "c", fun _ => 7⟩

/-- A concrete state a managed block could leave behind: the flags exactly as
`__enter__` left them, every value changed to 99. -/
def tsmSB : SysState :=
  { enterTSM tsmS0 ["a", "b"] ["c", "d"] with value := fun _ => 99 }

end Subsystems

namespace CuttingPlane

theorem foldl_add_map {α : Type} (l : List α) (g : α → ℚ) (a : ℚ) :
    l.foldl (fun acc x => acc + g x) a = a + (l.map g).sum := by
  induction l generalizing a with
  | nil => simp
  | cons x t ih => simp [ih, add_assoc]

theorem foldl_append_map {α β : Type} (l : List α) (g : α → β) (a : List β) :
    l.foldl (fun acc x => acc ++ [g x]) a = a ++ l.map g := by
  induction l generalizing a with
  | nil => simp
  | cons x t ih => simp [ih]

theorem registeredKeys_cons_skip (v : VarComp) (t : List VarComp)
    (h : strStarts v.name "_gdp_relax_bigm." = true) :
    registeredKeys (v :: t) = registeredKeys t := by
  simp [registeredKeys, registeredVars, List.filter_cons, h]

theorem registeredKeys_cons_keep (v : VarComp) (t : List VarComp)
    (h : strStarts v.name "_gdp_relax_bigm." = false) :
    registeredKeys (v :: t) = varKeys v ++ registeredKeys t := by
  simp [registeredKeys, registeredVars, List.filter_cons, h]

theorem filtered_fold_add (vars : List VarComp) (g : String → ℚ) (a : ℚ) :
    vars.foldl (fun acc v =>
      if strStarts v.name "_gdp_relax_bigm." then acc
      else v.indices.foldl (fun b idx => b + g (key v.name idx)) acc) a
    = a + ((registeredKeys vars).map g).sum := by
  induction vars generalizing a with
  | nil => simp [registeredKeys, registeredVars]
  | cons v t ih =>
    rw [List.foldl_cons]
    cases h : strStarts v.name "_gdp_relax_bigm." with
    | true =>
      rw [if_pos (by simp [h]), ih, registeredKeys_cons_skip v t h]
    | false =>
      rw [if_neg (by simp [h]), ih,
        foldl_add_map v.indices (fun idx => g (key v.name idx)) a,
        registeredKeys_cons_keep v t h]
      simp [varKeys, List.map_map, add_assoc, Function.comp_def]

theorem filtered_fold_append {β : Type} (vars : List VarComp) (g : String → β)
    (a : List β) :
    vars.foldl (fun acc v =>
      if strStarts v.name "_gdp_relax_bigm." then acc
      else v.indices.foldl (fun b idx => b ++ [g (key v.name idx)]) acc) a
    = a ++ (registeredKeys vars).map g := by
  induction vars generalizing a with
  | nil => simp [registeredKeys, registeredVars]
  | cons v t ih =>
    rw [List.foldl_cons]
    cases h : strStarts v.name "_gdp_relax_bigm." with
    | true =>
      rw [if_pos (by simp [h]), ih, registeredKeys_cons_skip v t h]
    | false =>
      rw [if_neg (by simp [h]), ih,
        foldl_append_map v.indices (fun idx => g (key v.name idx)) a,
        registeredKeys_cons_keep v t h]
      simp [varKeys, List.map_map, Function.comp_def]

theorem x_star_eq_map (vars : List VarComp) (bval : String → ℚ) :
    x_star vars bval = (registeredKeys vars).map (fun k => (k, bval k)) := by
  simpa [x_star] using
    filtered_fold_append vars (fun k => (k, bval k)) []

theorem obj_expr_eq_sum (vars : List VarComp) (bval assign : String → ℚ) :
    obj_expr vars bval assign
    = ((registeredKeys vars).map (fun k => (assign k - bval k) ^ 2)).sum := by
  simpa [obj_expr] using
    filtered_fold_add vars (fun k => (assign k - bval k) ^ 2) 0

theorem cutexpr_eq_sum (vars : List VarComp) (xs : List (String × ℚ))
    (chullVal target : String → ℚ) :
    cutexpr vars xs chullVal target
    = ((registeredKeys vars).map
        (fun k => (chullVal k - lookupD xs k) * (target k - chullVal k))).sum := by
  simpa [cutexpr] using
    filtered_fold_add vars
      (fun k => (chullVal k - lookupD xs k) * (target k - chullVal k)) 0

theorem cutTerms_eq_map (vars : List VarComp) (xs : List (String × ℚ))
    (chullVal : String → ℚ) :
    cutTerms vars xs chullVal
    = (registeredKeys vars).map
        (fun k => (k, chullVal k - lookupD xs k, chullVal k)) := by
  simpa [cutTerms] using
    filtered_fold_append vars
      (fun k => (k, chullVal k - lookupD xs k, chullVal k)) []

theorem lookup_map_self (ks : List String) (f : String → ℚ) (k : String)
    (hk : k ∈ ks) :
    List.lookup k (ks.map (fun x => (x, f x))) = some (f k) := by
  induction ks with
  | nil => cases hk
  | cons a t ih =>
    rcases List.mem_cons.mp hk with h | h
    · subst h; simp [List.lookup]
    · by_cases hak : k = a
      · subst hak; simp [List.lookup]
      · have hb : (k == a) = false := beq_eq_false_iff_ne.mpr hak
        simp [List.lookup, hb, ih h]

theorem lookupD_x_star (vars : List VarComp) (bval : String → ℚ) (k : String)
    (hk : k ∈ registeredKeys vars) :
    lookupD (x_star vars bval) k = bval k := by
  rw [lookupD, x_star_eq_map, lookup_map_self _ _ _ hk]
  rfl

end CuttingPlane

namespace CuttingPlane

theorem count_allKeys_split (vars : List VarComp) (k : String) :
    (allKeys vars).count k
      = (registeredKeys vars).count k + (indicatorKeys vars).count k := by
  induction vars with
  | nil => simp [allKeys, registeredKeys, indicatorKeys, registeredVars]
  | cons v t ih =>
    cases h : strStarts v.name "_gdp_relax_bigm." with
    | true =>
      have ha : allKeys (v :: t) = varKeys v ++ allKeys t := by simp [allKeys]
      have hik : indicatorKeys (v :: t) = varKeys v ++ indicatorKeys t := by
        simp [indicatorKeys, List.filter_cons, h]
      rw [ha, registeredKeys_cons_skip v t h, hik, List.count_append,
        List.count_append, ih]
      omega
    | false =>
      have ha : allKeys (v :: t) = varKeys v ++ allKeys t := by simp [allKeys]
      have hik : indicatorKeys (v :: t) = indicatorKeys t := by
        simp [indicatorKeys, List.filter_cons, h]
      rw [ha, registeredKeys_cons_keep v t h, hik, List.count_append,
        List.count_append, ih]
      omega

theorem mem_indicatorKeys (vars : List VarComp) (v : VarComp) (hv : v ∈ vars)
    (hind : strStarts v.name "_gdp_relax_bigm." = true)
    (idx : String) (hidx : idx ∈ v.indices) :
    key v.name idx ∈ indicatorKeys vars := by
  refine List.mem_flatMap.mpr ⟨v, List.mem_filter.mpr ⟨hv, hind⟩, ?_⟩
  exact List.mem_map.mpr ⟨idx, hidx, rfl⟩

/-- Claim C1: the convergence check of lines 42-46 and 118-124:
`prev_obj` starts at `float("inf")`, `epsilon` defaults to 0.001; each
iteration computes `delta = prev_obj - rBigm_objVal`, continues iff
`delta > epsilon`, updates `prev_obj` to the current objective
unconditionally (on the terminating iteration too), and a negative or
sub-epsilon delta stops the loop exactly like genuine convergence. -/
theorem convergence_check_correct (vars : List VarComp) (it : IterOracle)
    (s : LoopState) (os : List IterOracle) :
    initState.prev_obj = PyFloat.inf ∧
    epsilon = 1 / 1000 ∧
    (loopBody vars it s).prev_obj = PyFloat.fin it.weak.objVal ∧
    ((loopBody vars it s).improving = true ↔
      (s.prev_obj.sub it.weak.objVal).gtQ epsilon = true) ∧
    (∀ p : ℚ, s.prev_obj = PyFloat.fin p → p - it.weak.objVal ≤ epsilon →
      (loopBody vars it s).improving = false) ∧
    (s.improving = false → runLoop vars s (it :: os) = s) ∧
    (s.improving = true →
      runLoop vars s (it :: os) = runLoop vars (loopBody vars it s) os) := by
  refine ⟨rfl, by norm_num [epsilon], rfl, Iff.rfl, ?_, ?_, ?_⟩
  · intro p hp hle
    simp [loopBody, hp, PyFloat.sub, PyFloat.gtQ, not_lt.mpr hle]
  · intro h
    simp [runLoop, h]
  · intro h
    simp [runLoop, h]

/-- Witness for C1 at a concrete input: `prev_obj = 10`, current objective
`9.9995`, so `delta = 0.0005 ≤ epsilon`: the loop stops, and `prev_obj` is
updated to the current objective anyway. -/
theorem convergence_check_correct_app :
    (loopBody [] (seqOracle (19999 / 2000)) ⟨true, 0, PyFloat.fin 10, []⟩).improving
      = false ∧
    (loopBody [] (seqOracle (19999 / 2000)) ⟨true, 0, PyFloat.fin 10, []⟩).prev_obj
      = PyFloat.fin (19999 / 2000) :=
  ⟨(convergence_check_correct [] (seqOracle (19999 / 2000))
      ⟨true, 0, PyFloat.fin 10, []⟩ []).2.2.2.2.1 10 rfl
      (by norm_num [epsilon, seqOracle]),
   (convergence_check_correct [] (seqOracle (19999 / 2000))
      ⟨true, 0, PyFloat.fin 10, []⟩ []).2.2.1⟩

/-- Claim C2: the cut installed by each iteration is the inequality
`Σ_k d_k * (v_k - xhat_k) ≥ 0` whose summands range over exactly the
registered variable data, with coefficient `d_k = xhat_k - xstar_k`, where
`xstar` is the candidate recorded from the weak-relaxation solve and `xhat`
the projection returned by the separation solve.  The first conjunct places
that cut, tagged with the current iteration index, in the loop state; the
second identifies the accumulated cut expression with the hyperplane sum;
the third says the recorded summands denote the same expression. -/
theorem cut_is_supporting_hyperplane (vars : List VarComp) (it : IterOracle)
    (s : LoopState) (target : String → ℚ) :
    (loopBody vars it s).rBigmCuts
      = s.rBigmCuts ++
        [(s.iteration,
          cutTerms vars (x_star vars it.weak.rBigmVal) it.sep.chullVal)] ∧
    cutexpr vars (x_star vars it.weak.rBigmVal) it.sep.chullVal target
      = ((registeredKeys vars).map
          (fun k => (it.sep.chullVal k - it.weak.rBigmVal k) *
            (target k - it.sep.chullVal k))).sum ∧
    cutTermsValue (cutTerms vars (x_star vars it.weak.rBigmVal) it.sep.chullVal)
        target
      = cutexpr vars (x_star vars it.weak.rBigmVal) it.sep.chullVal target := by
  refine ⟨rfl, ?_, ?_⟩
  · rw [cutexpr_eq_sum]
    congr 1
    exact List.map_congr_left
      (fun k hk => by rw [lookupD_x_star vars it.weak.rBigmVal k hk])
  · rw [cutTermsValue, cutTerms_eq_map, cutexpr_eq_sum, List.map_map]
    rfl

end CuttingPlane

namespace CuttingPlane

/-- Counterexample to claim C3: fed a separation result equal to the
candidate (direction `d` exactly zero), the first iteration still installs a
cut — a degenerate one whose coefficient list is `[0]` — and the loop does
not stop there: `improving` stays true because
`prev_obj - rBigm_objVal = inf > epsilon`.  The code has no squared-norm
check and no `Converged` signal. -/
theorem degenerate_direction_still_cuts :
    ((loopBody degVars degOracle initState).rBigmCuts.map
        (fun c => c.2.map (fun t => t.2.1))) = [[0]] ∧
    (loopBody degVars degOracle initState).improving = true ∧
    (loopBody degVars degOracle initState).rBigmCuts.length = 1 := by
  have hs : strStarts "x" "_gdp_relax_bigm." = false := by decide
  norm_num [loopBody, cutTerms, x_star, lookupD, List.lookup, initState,
    epsilon, PyFloat.sub, PyFloat.gtQ, degVars, degOracle, hs]

/-- Amended claim C3: the code performs no norm-tolerance check: every
iteration installs exactly one new cut, degenerate (zero-direction) or not,
and the stopping decision depends only on the objective delta.  In
particular, on the first iteration `prev_obj = inf`, so the loop always
continues then — a candidate that already lies in the strong relaxation does
not end the loop with zero cuts. -/
theorem cut_installed_unconditionally (vars : List VarComp) (it : IterOracle)
    (s : LoopState) :
    (loopBody vars it s).rBigmCuts.length = s.rBigmCuts.length + 1 ∧
    (s.prev_obj = PyFloat.inf → (loopBody vars it s).improving = true) := by
  constructor
  · simp [loopBody]
  · intro h
    simp [loopBody, h, PyFloat.sub, PyFloat.gtQ]

/-- Witness for the amended C3 at the degenerate concrete input: the first
iteration continues despite the zero direction vector. -/
theorem cut_installed_unconditionally_app :
    (loopBody degVars degOracle initState).improving = true :=
  (cut_installed_unconditionally degVars degOracle initState).2 rfl

/-- Counterexample to claim C4: on the weak-relaxation objective sequence
[10.0, 9.5, 9.0001, 9.0000] with epsilon = 0.001 the loop does not add
exactly two cuts — a cut is installed on every iteration, before the
convergence check, so four cuts are added. -/
theorem spec_sequence_not_two_cuts :
    ¬ (runLoop [] initState specSeq).rBigmCuts.length = 2 := by
  norm_num [runLoop, loopBody, initState, specSeq, seqOracle, epsilon,
    PyFloat.sub, PyFloat.gtQ, cutTerms, x_star]

/-- Amended claim C4: on the objective sequence [10.0, 9.5, 9.0001, 9.0000]
with epsilon = 0.001, the computed deltas are inf (continue), 0.5 (continue),
0.4999 (continue) and 0.0001 (stop), and exactly four cuts, tagged 0, 1, 2
and 3, are added before the loop terminates, because the code installs a cut
each iteration before checking convergence — including the first iteration
(infinite delta) and the terminating one. -/
theorem spec_sequence_four_cuts :
    (runLoop [] initState specSeq).rBigmCuts.map Prod.fst = [0, 1, 2, 3] ∧
    (runLoop [] initState specSeq).improving = false ∧
    PyFloat.gtQ (PyFloat.sub (PyFloat.fin 10) (19 / 2)) epsilon = true ∧
    PyFloat.gtQ (PyFloat.sub (PyFloat.fin (19 / 2)) (90001 / 10000)) epsilon
      = true ∧
    PyFloat.gtQ (PyFloat.sub (PyFloat.fin (90001 / 10000)) 9) epsilon = false ∧
    PyFloat.sub (PyFloat.fin 10) (19 / 2) = PyFloat.fin (1 / 2) ∧
    PyFloat.sub (PyFloat.fin (19 / 2)) (90001 / 10000)
      = PyFloat.fin (4999 / 10000) ∧
    PyFloat.sub (PyFloat.fin (90001 / 10000)) 9 = PyFloat.fin (1 / 10000) := by
  norm_num [runLoop, loopBody, initState, specSeq, seqOracle, epsilon,
    PyFloat.sub, PyFloat.gtQ, cutTerms, x_star]

end CuttingPlane

namespace CuttingPlane

theorem runStream_invariant (f : Nat → ℚ)
    (h : ∀ k, epsilon < f k - f (k + 1)) :
    ∀ n, (runStream f n).improving = true ∧ (runStream f n).iteration = n ∧
      (∀ m, n = m + 1 → (runStream f n).prev_obj = PyFloat.fin (f m)) ∧
      (n = 0 → (runStream f n).prev_obj = PyFloat.inf) := by
  intro n
  induction n with
  | zero => exact ⟨rfl, rfl, fun m hm => by omega, fun _ => rfl⟩
  | succ n ih =>
    obtain ⟨himp, hiter, hfin, hinf⟩ := ih
    have hrun : runStream f (n + 1) = loopBody [] (seqOracle (f n)) (runStream f n) := by
      simp [runStream, himp]
    refine ⟨?_, ?_, ?_, fun hz => by omega⟩
    · cases n with
      | zero =>
        rw [hrun]
        simp [loopBody, hinf rfl, PyFloat.sub, PyFloat.gtQ, seqOracle]
      | succ p =>
        rw [hrun]
        have hp := hfin p rfl
        simp [loopBody, hp, PyFloat.sub, PyFloat.gtQ, seqOracle]
        exact h p
    · rw [hrun]
      simp [loopBody, hiter]
    · intro m hm
      have hmn : m = n := by omega
      subst hmn
      rw [hrun]
      simp [loopBody, seqOracle]

/-- Claim C9: there is no built-in iteration cap: whenever every consecutive
objective improvement exceeds epsilon, the guard is still true after any
number `n` of iterations and the loop has executed all `n` of them — so
there are input behaviors on which the `while` loop never terminates. -/
theorem loop_has_no_iteration_cap (f : Nat → ℚ)
    (h : ∀ k, epsilon < f k - f (k + 1)) (n : Nat) :
    (runStream f n).improving = true ∧ (runStream f n).iteration = n :=
  ⟨(runStream_invariant f h n).1, (runStream_invariant f h n).2.1⟩

/-- Witness for C9: objective values falling by 1 each iteration keep the
loop running, here checked after 5 iterations. -/
theorem loop_has_no_iteration_cap_app :
    (runStream (fun k => -(k : ℚ)) 5).improving = true ∧
    (runStream (fun k => -(k : ℚ)) 5).iteration = 5 :=
  loop_has_no_iteration_cap (fun k => -(k : ℚ))
    (fun k => by push_cast; ring_nf; norm_num [epsilon]) 5

/-- Amended claim C8: the loop never inspects either solver's reported
status: the weak solve's result object (`results`, line 61) is bound but
never read, and the separation solve's result (line 92) is discarded, so an
iteration's entire effect is the same for any reported status — no
`SolveFailure` abort of any phase exists, and the loop continues past a
failed solve exactly as past a successful one. -/
theorem solver_status_ignored (vars : List VarComp) (s : LoopState)
    (o1 o2 : IterOracle) (h1 : o1.weak.objVal = o2.weak.objVal)
    (h2 : o1.weak.rBigmVal = o2.weak.rBigmVal)
    (h3 : o1.sep.chullVal = o2.sep.chullVal) :
    loopBody vars o1 s = loopBody vars o2 s := by
  simp [loopBody, h1, h2, h3]

/-- Witness for the amended C8: two oracles that differ only in reported
status (success versus infeasible/error) produce identical loop states. -/
theorem solver_status_ignored_app :
    loopBody [] ⟨⟨SolverStatus.ok, 5, fun _ => 0⟩, ⟨SolverStatus.ok, fun _ => 0⟩⟩
        initState
      = loopBody []
          ⟨⟨SolverStatus.infeasible, 5, fun _ => 0⟩,
           ⟨SolverStatus.error, fun _ => 0⟩⟩ initState :=
  solver_status_ignored [] initState _ _ rfl rfl rfl

/-- Counterexample to claim C8: after a weak-relaxation solve that reports
infeasibility, the loop is not aborted: the iteration completes, a cut is
installed, and `improving` is still true, so the loop continues — no
`SolveFailure` is raised. -/
theorem loop_continues_after_solver_failure :
    (loopBody [] ⟨⟨SolverStatus.infeasible, 5, fun _ => 0⟩,
        ⟨SolverStatus.infeasible, fun _ => 0⟩⟩ initState).improving = true ∧
    (loopBody [] ⟨⟨SolverStatus.infeasible, 5, fun _ => 0⟩,
        ⟨SolverStatus.infeasible, fun _ => 0⟩⟩ initState).iteration = 1 ∧
    (loopBody [] ⟨⟨SolverStatus.infeasible, 5, fun _ => 0⟩,
        ⟨SolverStatus.infeasible, fun _ => 0⟩⟩ initState).rBigmCuts.length = 1 := by
  norm_num [loopBody, initState, PyFloat.sub, PyFloat.gtQ, cutTerms, x_star,
    epsilon]

/-- Claim C5 (code bug): the statements meant to install each cut into the
separately persisted big-M instance and to hand it to the final MIP solve
read the name `instance_bigm` (lines 103, 112 and 129), but that name is
never bound: it is neither a local of `_apply_to` nor a module-level name, so
the first iteration raises `NameError` at line 103.  The in-place big-M
transformation of line 37 (`bigMRelaxation.apply_to(instance)`) shows
`instance` is the intended target. -/
theorem instance_bigm_never_bound :
    "instance_bigm" ∈ cutInstallTargetNames ∧
    "instance_bigm" ∉ boundLocalNames ∧
    "instance_bigm" ∉ moduleLevelNames := by
  decide

/-- Counterexample to claim C6: the separation step does not install a fresh
minimization objective; it overwrites the expression of an already existing
objective via `set_value(expr=...)` (line 89), which leaves the objective's
sense unchanged — here, still maximization. -/
theorem separation_objective_sense_not_forced :
    (set_objective_value ⟨true, ObjSense.maximize, fun _ => 0⟩
        (obj_expr [] (fun _ => 0))).sense = ObjSense.maximize ∧
    ObjSense.maximize ≠ ObjSense.minimize :=
  ⟨rfl, by decide⟩

/-- Amended claim C6: before the loop (once, not per separation solve) every
objective datum on the hull instance is deactivated; each separation solve
then overwrites the expression of the retrieved objective with the sum over
all registered variable data of the squared difference between the hull
variable and its candidate value, keeping that objective's original sense
rather than forcing minimization, after which the continuous solver is
invoked on the hull instance. -/
theorem separation_objective_behavior (objs : List ObjComp) (o : ObjComp)
    (e : (String → ℚ) → ℚ) (vars : List VarComp) (bval assign : String → ℚ) :
    (∀ q ∈ deactivateAllObjectives objs, q.active = false) ∧
    (set_objective_value o e).sense = o.sense ∧
    (set_objective_value o e).objFn = e ∧
    obj_expr vars bval assign
      = ((registeredKeys vars).map (fun k => (assign k - bval k) ^ 2)).sum := by
  refine ⟨?_, rfl, rfl, obj_expr_eq_sum vars bval assign⟩
  intro q hq
  simp [deactivateAllObjectives] at hq
  obtain ⟨o1, _, rfl⟩ := hq
  rfl

/-- Witness for the amended C6: deactivating the objective list of a
one-objective hull instance leaves an inactive objective. -/
theorem separation_objective_behavior_app :
    ∃ q, q ∈ deactivateAllObjectives [⟨true, ObjSense.minimize, fun _ => 0⟩] ∧
      q.active = false := by
  refine ⟨_, List.Mem.head _, ?_⟩
  exact (separation_objective_behavior [⟨true, ObjSense.minimize, fun _ => 0⟩]
      ⟨true, ObjSense.minimize, fun _ => 0⟩ (fun _ => 0) [] (fun _ => 0)
      (fun _ => 0)).1 _ (List.Mem.head _)

/-- Claim C7: the cut's coefficient mapping and the candidate dictionary are
both indexed by exactly the registered variable data — every active
non-indicator variable datum contributes, and (when data keys are unique, as
they are for distinct Pyomo component names) no datum of a variable whose
name starts with `"_gdp_relax_bigm."` appears. -/
theorem cut_domain_exactly_registered (vars : List VarComp)
    (xs : List (String × ℚ)) (chullVal bval : String → ℚ)
    (hnd : (allKeys vars).Nodup) :
    (cutTerms vars xs chullVal).map (fun t => t.1) = registeredKeys vars ∧
    (x_star vars bval).map Prod.fst = registeredKeys vars ∧
    (∀ v ∈ vars, strStarts v.name "_gdp_relax_bigm." = true →
      ∀ idx ∈ v.indices, key v.name idx ∉ registeredKeys vars) := by
  refine ⟨?_, ?_, ?_⟩
  · rw [cutTerms_eq_map, List.map_map]
    simp [Function.comp_def]
  · rw [x_star_eq_map, List.map_map]
    simp [Function.comp_def]
  · intro v hv hind idx hidx hmem
    have h1 : 0 < (registeredKeys vars).count (key v.name idx) :=
      List.count_pos_iff.mpr hmem
    have h2 : 0 < (indicatorKeys vars).count (key v.name idx) :=
      List.count_pos_iff.mpr (mem_indicatorKeys vars v hv hind idx hidx)
    have h3 := List.nodup_iff_count_le_one.mp hnd (key v.name idx)
    rw [count_allKeys_split] at h3
    omega

/-- Witness for C7 on a concrete model with one indexed variable and one
indicator variable: the candidate's key list is exactly the registered keys,
and the indicator datum's key is excluded. -/
theorem cut_domain_exactly_registered_app :
    (x_star mixedVars (fun _ => 0)).map Prod.fst = registeredKeys mixedVars ∧
    key "_gdp_relax_bigm.d" "None" ∉ registeredKeys mixedVars := by
  have h := cut_domain_exactly_registered mixedVars [] (fun _ => 0) (fun _ => 0)
    (by decide)
  exact ⟨h.2.1,
    h.2.2 ⟨"_gdp_relax_bigm.d", ["None"]⟩ (List.Mem.tail _ (List.Mem.head _))
      (by decide) "None" (List.Mem.head _)⟩

end CuttingPlane

namespace Subsystems

theorem fix_foldl_fixed (l : List String) (s : SysState) (v : String) :
    (l.foldl fixVar s).fixed v = (if v ∈ l then true else s.fixed v) := by
  induction l generalizing s with
  | nil => simp
  | cons a t ih =>
    rw [List.foldl_cons, ih]
    by_cases h1 : v ∈ t
    · simp [h1]
    · by_cases h2 : v = a
      · simp [h1, h2, fixVar]
      · simp [h1, h2, fixVar]

theorem fix_foldl_active (l : List String) (s : SysState) :
    (l.foldl fixVar s).active = s.active := by
  induction l generalizing s with
  | nil => rfl
  | cons a t ih => rw [List.foldl_cons, ih]; rfl

theorem fix_foldl_value (l : List String) (s : SysState) :
    (l.foldl fixVar s).value = s.value := by
  induction l generalizing s with
  | nil => rfl
  | cons a t ih => rw [List.foldl_cons, ih]; rfl

theorem deactivate_foldl_active (l : List String) (s : SysState) (c : String) :
    (l.foldl deactivateCon s).active c = (if c ∈ l then false else s.active c) := by
  induction l generalizing s with
  | nil => simp
  | cons a t ih =>
    rw [List.foldl_cons, ih]
    by_cases h1 : c ∈ t
    · simp [h1]
    · by_cases h2 : c = a
      · simp [h1, h2, deactivateCon]
      · simp [h1, h2, deactivateCon]

theorem deactivate_foldl_fixed (l : List String) (s : SysState) :
    (l.foldl deactivateCon s).fixed = s.fixed := by
  induction l generalizing s with
  | nil => rfl
  | cons a t ih => rw [List.foldl_cons, ih]; rfl

theorem deactivate_foldl_value (l : List String) (s : SysState) :
    (l.foldl deactivateCon s).value = s.value := by
  induction l generalizing s with
  | nil => rfl
  | cons a t ih => rw [List.foldl_cons, ih]; rfl

theorem enter_fixed (s : SysState) (tf td : List String) (v : String) :
    (enterTSM s tf td).fixed v = (if v ∈ tf then true else s.fixed v) := by
  rw [enterTSM, deactivate_foldl_fixed, fix_foldl_fixed]

theorem enter_active (s : SysState) (tf td : List String) (c : String) :
    (enterTSM s tf td).active c = (if c ∈ td then false else s.active c) := by
  rw [enterTSM, deactivate_foldl_active, fix_foldl_active]

theorem unfix_foldl_keep_false (l : List (String × Bool)) (s : SysState)
    (v : String) (h : s.fixed v = false) :
    ((l.foldl (fun st p => if p.2 then st else unfixVar st p.1) s).fixed v)
      = false := by
  induction l generalizing s with
  | nil => exact h
  | cons p t ih =>
    rw [List.foldl_cons]
    apply ih
    by_cases hb : p.2 = true
    · simp [hb, h]
    · simp [hb, unfixVar]
      by_cases hv : v = p.1 <;> simp [hv, h]

theorem unfix_foldl_mem (l : List (String × Bool)) (s : SysState) (v : String)
    (h : (v, false) ∈ l) :
    ((l.foldl (fun st p => if p.2 then st else unfixVar st p.1) s).fixed v)
      = false := by
  induction h generalizing s with
  | head t =>
    rw [List.foldl_cons]
    apply unfix_foldl_keep_false
    simp [unfixVar]
  | tail p hmem ih =>
    rw [List.foldl_cons]
    exact ih _

theorem unfix_foldl_not_mem (l : List (String × Bool)) (s : SysState)
    (v : String) (h : ∀ b, (v, b) ∈ l → b = true) :
    ((l.foldl (fun st p => if p.2 then st else unfixVar st p.1) s).fixed v)
      = s.fixed v := by
  induction l generalizing s with
  | nil => rfl
  | cons p t ih =>
    rw [List.foldl_cons, ih _ (fun b hb => h b (List.mem_cons_of_mem p hb))]
    by_cases hb : p.2 = true
    · simp [hb]
    · have hne : v ≠ p.1 := by
        intro he
        subst he
        exact hb (h p.2 (List.mem_cons_self _ _))
      simp [hb, unfixVar, hne]

theorem unfix_foldl_active (l : List (String × Bool)) (s : SysState) :
    (l.foldl (fun st p => if p.2 then st else unfixVar st p.1) s).active
      = s.active := by
  induction l generalizing s with
  | nil => rfl
  | cons p t ih =>
    rw [List.foldl_cons, ih]
    by_cases hb : p.2 = true <;> simp [hb, unfixVar]

theorem unfix_foldl_value (l : List (String × Bool)) (s : SysState) :
    (l.foldl (fun st p => if p.2 then st else unfixVar st p.1) s).value
      = s.value := by
  induction l generalizing s with
  | nil => rfl
  | cons p t ih =>
    rw [List.foldl_cons, ih]
    by_cases hb : p.2 = true <;> simp [hb, unfixVar]

theorem act_foldl_keep_true (l : List (String × Bool)) (s : SysState)
    (c : String) (h : s.active c = true) :
    ((l.foldl (fun st p => if p.2 then activateCon st p.1 else st) s).active c)
      = true := by
  induction l generalizing s with
  | nil => exact h
  | cons p t ih =>
    rw [List.foldl_cons]
    apply ih
    by_cases hb : p.2 = true
    · simp [hb, activateCon]
      by_cases hv : c = p.1 <;> simp [hv, h]
    · simp [hb, h]

theorem act_foldl_mem (l : List (String × Bool)) (s : SysState) (c : String)
    (h : (c, true) ∈ l) :
    ((l.foldl (fun st p => if p.2 then activateCon st p.1 else st) s).active c)
      = true := by
  induction h generalizing s with
  | head t =>
    rw [List.foldl_cons]
    apply act_foldl_keep_true
    simp [activateCon]
  | tail p hmem ih =>
    rw [List.foldl_cons]
    exact ih _

theorem act_foldl_not_mem (l : List (String × Bool)) (s : SysState)
    (c : String) (h : ∀ b, (c, b) ∈ l → b = false) :
    ((l.foldl (fun st p => if p.2 then activateCon st p.1 else st) s).active c)
      = s.active c := by
  induction l generalizing s with
  | nil => rfl
  | cons p t ih =>
    rw [List.foldl_cons, ih _ (fun b hb => h b (List.mem_cons_of_mem p hb))]
    by_cases hb : p.2 = true
    · have hne : c ≠ p.1 := by
        intro he
        subst he
        have hpf := h p.2 (List.mem_cons_self _ _)
        rw [hb] at hpf
        simp at hpf
      simp [hb, activateCon, hne]
    · simp [hb]

theorem act_foldl_fixed (l : List (String × Bool)) (s : SysState) :
    (l.foldl (fun st p => if p.2 then activateCon st p.1 else st) s).fixed
      = s.fixed := by
  induction l generalizing s with
  | nil => rfl
  | cons p t ih =>
    rw [List.foldl_cons, ih]
    by_cases hb : p.2 = true <;> simp [hb, activateCon]

theorem act_foldl_value (l : List (String × Bool)) (s : SysState) :
    (l.foldl (fun st p => if p.2 then activateCon st p.1 else st) s).value
      = s.value := by
  induction l generalizing s with
  | nil => rfl
  | cons p t ih =>
    rw [List.foldl_cons, ih]
    by_cases hb : p.2 = true <;> simp [hb, activateCon]

theorem setv_foldl_not_mem (l : List (String × ℚ)) (s : SysState) (c : String)
    (h : ∀ p ∈ l, p.1 ≠ c) :
    ((l.foldl (fun st p => setCompValue st p.1 p.2) s).value c) = s.value c := by
  induction l generalizing s with
  | nil => rfl
  | cons p t ih =>
    rw [List.foldl_cons, ih _ (fun q hq => h q (List.mem_cons_of_mem p hq))]
    have hne : c ≠ p.1 := fun he => h p (List.mem_cons_self _ _) he.symm
    simp [setCompValue, hne]

theorem setv_foldl_map_mem (ks : List String) (f : String → ℚ) (s : SysState)
    (c : String) (hc : c ∈ ks) :
    (((ks.map (fun k => (k, f k))).foldl
        (fun st p => setCompValue st p.1 p.2) s).value c) = f c := by
  induction ks generalizing s with
  | nil => cases hc
  | cons a t ih =>
    rw [List.map_cons, List.foldl_cons]
    by_cases h1 : c ∈ t
    · exact ih _ h1
    · have hca : c = a := by
        rcases List.mem_cons.mp hc with h | h
        · exact h
        · exact absurd h h1
      subst hca
      rw [setv_foldl_not_mem]
      · simp [setCompValue]
      · intro p hp
        obtain ⟨k, hk, rfl⟩ := List.mem_map.mp hp
        exact fun he => h1 (he ▸ hk)

theorem setv_foldl_fixed (l : List (String × ℚ)) (s : SysState) :
    (l.foldl (fun st p => setCompValue st p.1 p.2) s).fixed = s.fixed := by
  induction l generalizing s with
  | nil => rfl
  | cons p t ih => rw [List.foldl_cons, ih]; rfl

theorem setv_foldl_active (l : List (String × ℚ)) (s : SysState) :
    (l.foldl (fun st p => setCompValue st p.1 p.2) s).active = s.active := by
  induction l generalizing s with
  | nil => rfl
  | cons p t ih => rw [List.foldl_cons, ih]; rfl

end Subsystems

namespace Subsystems

/-- Claim C10: `TemporarySubsystemManager` restores prior state on exit.
Given the entry state `s0` and any state `sB` the managed block leaves
behind without touching the fixed/active flags: every `to_fix` variable that
was unfixed at entry is unfixed on exit and every one that was fixed stays
fixed; every `to_deactivate` constraint that was active at entry is
reactivated and every inactive one stays inactive; every `to_reset`
component gets its entry value back; and no other component's value — in
particular not the value of a variable that was merely fixed by entry — is
restored. -/
theorem tsm_restores_prior_state (s0 sB : SysState)
    (to_fix to_deactivate to_reset : List String)
    (hfix : sB.fixed = (enterTSM s0 to_fix to_deactivate).fixed)
    (hact : sB.active = (enterTSM s0 to_fix to_deactivate).active) :
    (∀ v ∈ to_fix, s0.fixed v = false →
      (tsmExitFrom s0 sB to_fix to_deactivate to_reset).fixed v = false) ∧
    (∀ v ∈ to_fix, s0.fixed v = true →
      (tsmExitFrom s0 sB to_fix to_deactivate to_reset).fixed v = true) ∧
    (∀ c ∈ to_deactivate, s0.active c = true →
      (tsmExitFrom s0 sB to_fix to_deactivate to_reset).active c = true) ∧
    (∀ c ∈ to_deactivate, s0.active c = false →
      (tsmExitFrom s0 sB to_fix to_deactivate to_reset).active c = false) ∧
    (∀ c ∈ to_reset,
      (tsmExitFrom s0 sB to_fix to_deactivate to_reset).value c = s0.value c) ∧
    (∀ v, v ∉ to_reset →
      (tsmExitFrom s0 sB to_fix to_deactivate to_reset).value v = sB.value v) := by
  refine ⟨?_, ?_, ?_, ?_, ?_, ?_⟩
  · intro v hv h0
    rw [tsmExitFrom, exitTSM, setv_foldl_fixed, act_foldl_fixed]
    exact unfix_foldl_mem _ _ _
      (List.mem_map.mpr ⟨v, hv, by rw [h0]⟩)
  · intro v hv h1
    rw [tsmExitFrom, exitTSM, setv_foldl_fixed, act_foldl_fixed,
      unfix_foldl_not_mem]
    · rw [hfix, enter_fixed]
      simp [hv]
    · intro b hb
      obtain ⟨a, ha, heq⟩ := List.mem_map.mp hb
      injection heq with he1 he2
      subst he1
      rw [← he2, h1]
  · intro c hc h1
    rw [tsmExitFrom, exitTSM, setv_foldl_active]
    exact act_foldl_mem _ _ _
      (List.mem_map.mpr ⟨c, hc, by rw [h1]⟩)
  · intro c hc h0
    rw [tsmExitFrom, exitTSM, setv_foldl_active, act_foldl_not_mem,
      unfix_foldl_active]
    · rw [hact, enter_active]
      simp [hc]
    · intro b hb
      obtain ⟨a, ha, heq⟩ := List.mem_map.mp hb
      injection heq with he1 he2
      subst he1
      rw [← he2, h0]
  · intro c hc
    rw [tsmExitFrom, exitTSM, comp_original_value]
    exact setv_foldl_map_mem to_reset s0.value _ c hc
  · intro v hv
    rw [tsmExitFrom, exitTSM, setv_foldl_not_mem, act_foldl_value,
      unfix_foldl_value]
    intro p hp
    obtain ⟨k, hk, rfl⟩ := List.mem_map.mp hp
    exact fun he => hv (he ▸ hk)

/-- Witness for C10 on a concrete model: `a` unfixed, `b` fixed, `c` active,
`d` inactive at entry, all values 7; the block changes every value to 99.
On exit the flags of `a`, `b`, `c`, `d` are restored, the `to_reset`
component `e` gets 7 back, and the fixed variable `a` keeps the block's 99. -/
theorem tsm_restores_prior_state_app :
    (tsmExitFrom tsmS0 tsmSB ["a", "b"] ["c", "d"] ["e"]).fixed "a" = false ∧
    (tsmExitFrom tsmS0 tsmSB ["a", "b"] ["c", "d"] ["e"]).fixed "b" = true ∧
    (tsmExitFrom tsmS0 tsmSB ["a", "b"] ["c", "d"] ["e"]).active "c" = true ∧
    (tsmExitFrom tsmS0 tsmSB ["a", "b"] ["c", "d"] ["e"]).active "d" = false ∧
    (tsmExitFrom tsmS0 tsmSB ["a", "b"] ["c", "d"] ["e"]).value "e" = 7 ∧
    (tsmExitFrom tsmS0 tsmSB ["a", "b"] ["c", "d"] ["e"]).value "a" = 99 := by
  have h := tsm_restores_prior_state tsmS0 tsmSB ["a", "b"] ["c", "d"] ["e"]
    rfl rfl
  exact ⟨h.1 "a" (by decide) (by decide),
    h.2.1 "b" (by decide) (by decide),
    h.2.2.1 "c" (by decide) (by decide),
    h.2.2.2.1 "d" (by decide) (by decide),
    h.2.2.2.2.1 "e" (by decide),
    h.2.2.2.2.2 "a" (by decide)⟩

end Subsystems
